import Mathlib

set_option linter.unusedVariables false

/-!
R1CS structure recorder and export driver: a shallow embedding of
`src/groth16/exporter.rs` (the `RawCircuit` constraint-system recorder and the
`export_to_json` driver), together with proofs of its structural properties.
Coefficients are an arbitrary type `S` standing for the `Scalar: PrimeField`
type parameter; the recorder performs no field arithmetic on them.
A Rust panic (out-of-bounds ledger index) is modelled as `none`.
-/

namespace Bellman

/-- Variable index from the bellman crate: `Index::Input(usize)` or `Index::Aux(usize)`. -/
inductive Index where
  | Input : Nat → Index
  | Aux : Nat → Index
deriving DecidableEq, Repr

/-- Wrapper struct `Variable(Index)` from the bellman crate. -/
structure Variable where
  idx : Index
deriving DecidableEq, Repr

/-- Modelled from the spec: `LinearCombination` lives in the crate root, which is
not under `src/`. Per the spec it is an ordered sequence of (coefficient, Variable)
pairs kept in insertion order with no deduplication or normalization. The pair
order `(Variable, coefficient)` matches the iteration `for (index, coeff) in l.0`
in `exporter.rs`. -/
structure LinearCombination (S : Type) where
  terms : List (Variable × S)
deriving DecidableEq, Repr

/-- Modelled from the spec: the empty linear combination (`LinearCombination::zero()`). -/
def LinearCombination.zero {S : Type} : LinearCombination S := ⟨[]⟩

/-- Modelled from the spec: the linear-combination builder accepts caller-supplied
term additions (coefficient, variable), appended in insertion order. -/
def LinearCombination.addTerm {S : Type} (l : LinearCombination S) (coeff : S) (v : Variable) :
    LinearCombination S :=
  ⟨l.terms ++ [(v, coeff)]⟩

/-- Modelled from the spec: `lc + variable` adds a term with coefficient one, as used
by the padding constraints A = (1, Input(i)). -/
def LinearCombination.addVar {S : Type} [One S] (l : LinearCombination S) (v : Variable) :
    LinearCombination S :=
  l.addTerm 1 v

/-- Modelled from the spec: `SynthesisError` is defined in the crate root, which is
not under `src/`. The spec describes a single external error kind ("circuit
synthesis failure") raised only by the circuit-definition routine; a numeric
payload distinguishes particular failure values so exact propagation is observable. -/
structure SynthesisError where
  code : Nat
deriving DecidableEq, Repr

/-- The structure-only recorder `RawCircuit<Scalar>` of `exporter.rs`: counters,
six per-variable column ledgers (entries are (coefficient, constraint-index)),
and the three row-form matrices of linear combinations. -/
structure RawCircuit (S : Type) where
  num_inputs : Nat
  num_aux : Nat
  num_constraints : Nat
  at_inputs : List (List (S × Nat))
  bt_inputs : List (List (S × Nat))
  ct_inputs : List (List (S × Nat))
  at_aux : List (List (S × Nat))
  bt_aux : List (List (S × Nat))
  ct_aux : List (List (S × Nat))
  lc_a : List (LinearCombination S)
  lc_b : List (LinearCombination S)
  lc_c : List (LinearCombination S)
deriving DecidableEq

/-- The all-empty recorder `export_to_json` starts from. -/
def RawCircuit.empty (S : Type) : RawCircuit S :=
  ⟨0, 0, 0, [], [], [], [], [], [], [], [], []⟩

/-- `RawCircuit::alloc`: ignores the name and value-synthesis closures (they are
never invoked), returns a fresh `Aux` variable indexed by the current auxiliary
count, increments that count, and pushes one empty column onto each of the three
auxiliary ledgers. Always returns `Ok`. -/
def RawCircuit.alloc {S : Type} (st : RawCircuit S) (nm : Unit → String)
    (f : Unit → Except SynthesisError S) : Except SynthesisError (Variable × RawCircuit S) :=
  Except.ok (⟨Index.Aux st.num_aux⟩,
    { st with
      num_aux := st.num_aux + 1
      at_aux := st.at_aux ++ [[]]
      bt_aux := st.bt_aux ++ [[]]
      ct_aux := st.ct_aux ++ [[]] })

/-- `RawCircuit::alloc_input`: symmetric to `alloc` for the `Input` variant. -/
def RawCircuit.alloc_input {S : Type} (st : RawCircuit S) (nm : Unit → String)
    (f : Unit → Except SynthesisError S) : Except SynthesisError (Variable × RawCircuit S) :=
  Except.ok (⟨Index.Input st.num_inputs⟩,
    { st with
      num_inputs := st.num_inputs + 1
      at_inputs := st.at_inputs ++ [[]]
      bt_inputs := st.bt_inputs ++ [[]]
      ct_inputs := st.ct_inputs ++ [[]] })

/-- `inputs[id].push(entry)` from `eval`: the indexing panics when `id` is out of
bounds, modelled by `none`. -/
def pushAt {S : Type} (ls : List (List (S × Nat))) (i : Nat) (e : S × Nat) :
    Option (List (List (S × Nat))) :=
  if i < ls.length then some (ls.set i (ls.getD i [] ++ [e])) else none

/-- The `eval` helper inside `RawCircuit::enforce`: walks the terms of one linear
combination and pushes (coefficient, this_constraint) onto the input or auxiliary
ledger column selected by each term's variable. -/
def evalTerms {S : Type} : List (Variable × S) → List (List (S × Nat)) →
    List (List (S × Nat)) → Nat → Option (List (List (S × Nat)) × List (List (S × Nat)))
  | [], ins, aux, _ => some (ins, aux)
  | (⟨Index.Input i⟩, coeff) :: rest, ins, aux, k =>
    match pushAt ins i (coeff, k) with
    | none => none
    | some ins' => evalTerms rest ins' aux k
  | (⟨Index.Aux i⟩, coeff) :: rest, ins, aux, k =>
    match pushAt aux i (coeff, k) with
    | none => none
    | some aux' => evalTerms rest ins aux' k

/-- `RawCircuit::enforce`: applies the three builders to the empty linear
combination, appends the results to the row form, records every term in the
matching column ledger via `eval`, and increments the constraint counter. -/
def RawCircuit.enforce {S : Type} (st : RawCircuit S) (nm : Unit → String)
    (fa fb fc : LinearCombination S → LinearCombination S) : Option (RawCircuit S) :=
  let a := fa LinearCombination.zero
  let b := fb LinearCombination.zero
  let c := fc LinearCombination.zero
  match evalTerms a.terms st.at_inputs st.at_aux st.num_constraints with
  | none => none
  | some (ai, aa) =>
    match evalTerms b.terms st.bt_inputs st.bt_aux st.num_constraints with
    | none => none
    | some (bi, ba) =>
      match evalTerms c.terms st.ct_inputs st.ct_aux st.num_constraints with
      | none => none
      | some (ci, ca) =>
        some { st with
          lc_a := st.lc_a ++ [a]
          lc_b := st.lc_b ++ [b]
          lc_c := st.lc_c ++ [c]
          at_inputs := ai, at_aux := aa
          bt_inputs := bi, bt_aux := ba
          ct_inputs := ci, ct_aux := ca
          num_constraints := st.num_constraints + 1 }

/-- `RawCircuit::push_namespace`: does nothing; the naming closure is never invoked. -/
def RawCircuit.push_namespace {S : Type} (st : RawCircuit S) (nm : Unit → String) :
    RawCircuit S :=
  st

/-- `RawCircuit::pop_namespace`: does nothing. -/
def RawCircuit.pop_namespace {S : Type} (st : RawCircuit S) : RawCircuit S :=
  st

/-- `RawCircuit::get_root`: returns the recorder itself. -/
def RawCircuit.get_root {S : Type} (st : RawCircuit S) : RawCircuit S :=
  st

/-- One observable recorder operation performed by a circuit-definition routine
through the `ConstraintSystem` interface. An `enforce` is recorded by the three
linear combinations its builders produce from the empty combination (the only
use the recorder makes of the builders). -/
inductive Op (S : Type) where
  | allocAux : Op S
  | allocInput : Op S
  | enforce : LinearCombination S → LinearCombination S → LinearCombination S → Op S
  | pushNS : Op S
  | popNS : Op S

/-- Effect of one operation on the recorder; `none` models a panic inside `enforce`. -/
def applyOp {S : Type} (st : RawCircuit S) : Op S → Option (RawCircuit S)
  | Op.allocAux =>
    match st.alloc (fun _ => "") (fun _ => Except.error ⟨0⟩) with
    | Except.ok (_, st') => some st'
    | Except.error _ => none
  | Op.allocInput =>
    match st.alloc_input (fun _ => "") (fun _ => Except.error ⟨0⟩) with
    | Except.ok (_, st') => some st'
    | Except.error _ => none
  | Op.enforce a b c => st.enforce (fun _ => "") (fun _ => a) (fun _ => b) (fun _ => c)
  | Op.pushNS => some (st.push_namespace (fun _ => ""))
  | Op.popNS => some st.pop_namespace

/-- Runs a trace of recorder operations from a given state. -/
def run {S : Type} (st : RawCircuit S) : List (Op S) → Option (RawCircuit S)
  | [] => some st
  | op :: ops =>
    match applyOp st op with
    | none => none
    | some st' => run st' ops

/-- Number of `enforce` operations in a trace (the k of the spec). -/
def enforceCount {S : Type} : List (Op S) → Nat
  | [] => 0
  | Op.enforce _ _ _ :: rest => enforceCount rest + 1
  | _ :: rest => enforceCount rest

/-- Number of `allocInput` operations in a trace (the n-1 of the spec). -/
def inputAllocCount {S : Type} : List (Op S) → Nat
  | [] => 0
  | Op.allocInput :: rest => inputAllocCount rest + 1
  | _ :: rest => inputAllocCount rest

/-- The recorder state right after the driver allocates the reserved "one" input. -/
def oneState (S : Type) : RawCircuit S :=
  ⟨1, 0, 0, [[]], [[]], [[]], [], [], [], [], [], []⟩

/-- An external circuit-definition routine, modelled by the trace of operations it
performs against the recorder followed by its outcome: `none` for success, `some e`
for the synthesis failure `e` it signals after those operations. -/
structure CircuitRoutine (S : Type) where
  ops : List (Op S)
  outcome : Option SynthesisError

/-- The padding loop of `export_to_json`:
`cs.enforce(.., lc + Input(i), lc, lc)` for each listed input index. -/
def padLoop {S : Type} [One S] : List Nat → RawCircuit S → Option (RawCircuit S)
  | [], st => some st
  | i :: is, st =>
    match st.enforce (fun _ => "")
        (fun l => l.addVar ⟨Index.Input i⟩) (fun l => l) (fun l => l) with
    | none => none
    | some st' => padLoop is st'

/-- `for i in 0..cs.num_inputs` over the padding loop body (the range bound is
read once, and the body never changes `num_inputs`). -/
def padInputs {S : Type} [One S] (st : RawCircuit S) : Option (RawCircuit S) :=
  padLoop (List.range st.num_inputs) st

/-- The `export_to_json` driver: create the empty recorder, allocate the "one"
input, run the circuit routine, append one padding constraint per allocated
input, then emit the three row-form matrices (the structural dump the Rust code
prints). A routine failure propagates unchanged; a panic is `none`. -/
def export_to_json {S : Type} [One S] (c : CircuitRoutine S) :
    Option (Except SynthesisError
      (List (LinearCombination S) × List (LinearCombination S) × List (LinearCombination S))) :=
  match (RawCircuit.empty S).alloc_input (fun _ => "") (fun _ => Except.ok 1) with
  | Except.error e => some (Except.error e)
  | Except.ok (_, cs1) =>
    match run cs1 c.ops with
    | none => none
    | some cs2 =>
      match c.outcome with
      | some e => some (Except.error e)
      | none =>
        match padInputs cs2 with
        | none => none
        | some cs3 => some (Except.ok (cs3.lc_a, cs3.lc_b, cs3.lc_c))

/-- Column ledger of variable `v` in the A matrix (empty when out of range). -/
def RawCircuit.colA {S : Type} (st : RawCircuit S) (v : Variable) : List (S × Nat) :=
  match v.idx with
  | Index.Input i => st.at_inputs.getD i []
  | Index.Aux i => st.at_aux.getD i []

/-- Column ledger of variable `v` in the B matrix (empty when out of range). -/
def RawCircuit.colB {S : Type} (st : RawCircuit S) (v : Variable) : List (S × Nat) :=
  match v.idx with
  | Index.Input i => st.bt_inputs.getD i []
  | Index.Aux i => st.bt_aux.getD i []

/-- Column ledger of variable `v` in the C matrix (empty when out of range). -/
def RawCircuit.colC {S : Type} (st : RawCircuit S) (v : Variable) : List (S × Nat) :=
  match v.idx with
  | Index.Input i => st.ct_inputs.getD i []
  | Index.Aux i => st.ct_aux.getD i []

/-- Ledger entries a term list contributes to variable `v`'s column for constraint `k`,
in term order. -/
def entriesFor {S : Type} (ts : List (Variable × S)) (v : Variable) (k : Nat) :
    List (S × Nat) :=
  ts.filterMap (fun t => if t.1 = v then some (t.2, k) else none)

/-- Column of variable `v` derived from a row-form matrix whose first row has
constraint index `i`. -/
def colOfFrom {S : Type} (v : Variable) :
    Nat → List (LinearCombination S) → List (S × Nat)
  | _, [] => []
  | i, l :: ls => entriesFor l.terms v i ++ colOfFrom v (i + 1) ls

/-- Column of variable `v` derived from a row-form matrix. -/
def colOf {S : Type} (lcs : List (LinearCombination S)) (v : Variable) :
    List (S × Nat) :=
  colOfFrom v 0 lcs

/-- Multiplicity of the term (v, x) in a linear combination. -/
def termCount {S : Type} [DecidableEq S] (l : LinearCombination S) (v : Variable) (x : S) : Nat :=
  l.terms.countP (fun t => decide (t.1 = v ∧ t.2 = x))

/-- Multiplicity of the entry (x, c) in a column ledger. -/
def ledgerCount {S : Type} [DecidableEq S] (ledger : List (S × Nat)) (x : S) (c : Nat) : Nat :=
  ledger.countP (fun e => decide (e = (x, c)))

/-- Row/column consistency: every variable appears in constraint `c`'s linear
combination with coefficient `x` exactly as often as `(x, c)` appears in that
variable's column ledger, for each of the three matrices. -/
def rowColConsistent {S : Type} [DecidableEq S] (st : RawCircuit S) : Prop :=
  ∀ (c : Nat) (v : Variable) (x : S),
    termCount (st.lc_a.getD c LinearCombination.zero) v x = ledgerCount (st.colA v) x c ∧
    termCount (st.lc_b.getD c LinearCombination.zero) v x = ledgerCount (st.colB v) x c ∧
    termCount (st.lc_c.getD c LinearCombination.zero) v x = ledgerCount (st.colC v) x c

/-- A variable was previously allocated: its index is below the matching counter. -/
def varInBounds (ni na : Nat) (v : Variable) : Prop :=
  match v.idx with
  | Index.Input i => i < ni
  | Index.Aux i => i < na

instance (ni na : Nat) (v : Variable) : Decidable (varInBounds ni na v) :=
  match v with
  | ⟨Index.Input i⟩ => inferInstanceAs (Decidable (i < ni))
  | ⟨Index.Aux i⟩ => inferInstanceAs (Decidable (i < na))

/-- Structural invariant of the recorder: ledger lengths match the counters, row
lengths match the constraint counter, and each column ledger equals the column
derived from the corresponding row-form matrix. -/
structure Inv {S : Type} (st : RawCircuit S) : Prop where
  ai : st.at_inputs.length = st.num_inputs
  bi : st.bt_inputs.length = st.num_inputs
  ci : st.ct_inputs.length = st.num_inputs
  aa : st.at_aux.length = st.num_aux
  ba : st.bt_aux.length = st.num_aux
  ca : st.ct_aux.length = st.num_aux
  ra : st.lc_a.length = st.num_constraints
  rb : st.lc_b.length = st.num_constraints
  rc : st.lc_c.length = st.num_constraints
  colA : ∀ v, st.colA v = colOf st.lc_a v
  colB : ∀ v, st.colB v = colOf st.lc_b v
  colC : ∀ v, st.colC v = colOf st.lc_c v

/-- Full description of a successful `enforce` step from `st` to `st'` recording
the linear combinations `a`, `b`, `c`. -/
structure EnforceSpec {S : Type} (st st' : RawCircuit S)
    (a b c : LinearCombination S) : Prop where
  ni : st'.num_inputs = st.num_inputs
  na : st'.num_aux = st.num_aux
  nc : st'.num_constraints = st.num_constraints + 1
  ra : st'.lc_a = st.lc_a ++ [a]
  rb : st'.lc_b = st.lc_b ++ [b]
  rc : st'.lc_c = st.lc_c ++ [c]
  lai : st'.at_inputs.length = st.at_inputs.length
  laa : st'.at_aux.length = st.at_aux.length
  lbi : st'.bt_inputs.length = st.bt_inputs.length
  lba : st'.bt_aux.length = st.bt_aux.length
  lci : st'.ct_inputs.length = st.ct_inputs.length
  lca : st'.ct_aux.length = st.ct_aux.length
  cai : ∀ i, st'.at_inputs.getD i [] =
    st.at_inputs.getD i [] ++ entriesFor a.terms ⟨Index.Input i⟩ st.num_constraints
  caa : ∀ i, st'.at_aux.getD i [] =
    st.at_aux.getD i [] ++ entriesFor a.terms ⟨Index.Aux i⟩ st.num_constraints
  cbi : ∀ i, st'.bt_inputs.getD i [] =
    st.bt_inputs.getD i [] ++ entriesFor b.terms ⟨Index.Input i⟩ st.num_constraints
  cba : ∀ i, st'.bt_aux.getD i [] =
    st.bt_aux.getD i [] ++ entriesFor b.terms ⟨Index.Aux i⟩ st.num_constraints
  cci : ∀ i, st'.ct_inputs.getD i [] =
    st.ct_inputs.getD i [] ++ entriesFor c.terms ⟨Index.Input i⟩ st.num_constraints
  cca : ∀ i, st'.ct_aux.getD i [] =
    st.ct_aux.getD i [] ++ entriesFor c.terms ⟨Index.Aux i⟩ st.num_constraints
  bnda : ∀ t ∈ a.terms, varInBounds st.at_inputs.length st.at_aux.length t.1
  bndb : ∀ t ∈ b.terms, varInBounds st.bt_inputs.length st.bt_aux.length t.1
  bndc : ∀ t ∈ c.terms, varInBounds st.ct_inputs.length st.ct_aux.length t.1

/-! List helper lemmas about `getD`, `set` and `append`. -/

theorem getD_append_left {α : Type} (l1 l2 : List α) (d : α) :
    ∀ i, i < l1.length → (l1 ++ l2).getD i d = l1.getD i d := by
  induction l1 with
  | nil => intro i h; simp at h
  | cons a t ih =>
    intro i h
    cases i with
    | zero => rfl
    | succ n =>
      simp only [List.cons_append, List.getD_cons_succ]
      exact ih n (by simpa using h)

theorem getD_append_right {α : Type} (l1 l2 : List α) (d : α) :
    ∀ i, (l1 ++ l2).getD (l1.length + i) d = l2.getD i d := by
  induction l1 with
  | nil => intro i; simp
  | cons a t ih =>
    intro i
    have h : (a :: t).length + i = (t.length + i) + 1 := by simp; omega
    rw [h]
    simp only [List.cons_append, List.getD_cons_succ]
    exact ih i

theorem getD_singleton_pad {α : Type} (l : List α) (d : α) :
    ∀ i, (l ++ [d]).getD i d = l.getD i d := by
  induction l with
  | nil =>
    intro i
    cases i with
    | zero => rfl
    | succ n => simp [List.getD]
  | cons a t ih =>
    intro i
    cases i with
    | zero => rfl
    | succ n =>
      simp only [List.cons_append, List.getD_cons_succ]
      exact ih n

theorem getD_set_self {α : Type} (l : List α) (a d : α) :
    ∀ i, i < l.length → (l.set i a).getD i d = a := by
  induction l with
  | nil => intro i h; simp at h
  | cons b t ih =>
    intro i h
    cases i with
    | zero => rfl
    | succ n =>
      simp only [List.set_cons_succ, List.getD_cons_succ]
      exact ih n (by simpa using h)

theorem getD_set_ne {α : Type} (l : List α) (a d : α) :
    ∀ i j, i ≠ j → (l.set i a).getD j d = l.getD j d := by
  induction l with
  | nil => intro i j hij; simp
  | cons b t ih =>
    intro i j hij
    cases i with
    | zero =>
      cases j with
      | zero => exact absurd rfl hij
      | succ m => rfl
    | succ n =>
      cases j with
      | zero => rfl
      | succ m =>
        simp only [List.set_cons_succ, List.getD_cons_succ]
        exact ih n m (fun h => hij (by rw [h]))

/-! Properties of `evalTerms`, the ledger-recording pass of `enforce`. -/

theorem pushAt_some {S : Type} {ls ls' : List (List (S × Nat))} {i : Nat} {e : S × Nat}
    (h : pushAt ls i e = some ls') :
    i < ls.length ∧ ls' = ls.set i (ls.getD i [] ++ [e]) := by
  unfold pushAt at h
  by_cases hi : i < ls.length
  · rw [if_pos hi] at h
    exact ⟨hi, (Option.some.injEq _ _ ▸ h).symm⟩
  · rw [if_neg hi] at h
    exact absurd h (by simp)

theorem entriesFor_cons_eq {S : Type} (v : Variable) (coeff : S)
    (rest : List (Variable × S)) (k : Nat) :
    entriesFor ((v, coeff) :: rest) v k = (coeff, k) :: entriesFor rest v k := by
  simp [entriesFor]

theorem entriesFor_cons_ne {S : Type} {v w : Variable} (h : v ≠ w) (coeff : S)
    (rest : List (Variable × S)) (k : Nat) :
    entriesFor ((v, coeff) :: rest) w k = entriesFor rest w k := by
  simp [entriesFor, h]

theorem evalTerms_spec {S : Type} :
    ∀ (ts : List (Variable × S)) (ins aux ins' aux' : List (List (S × Nat))) (k : Nat),
    evalTerms ts ins aux k = some (ins', aux') →
    ins'.length = ins.length ∧ aux'.length = aux.length ∧
    (∀ i, ins'.getD i [] = ins.getD i [] ++ entriesFor ts ⟨Index.Input i⟩ k) ∧
    (∀ i, aux'.getD i [] = aux.getD i [] ++ entriesFor ts ⟨Index.Aux i⟩ k) := by
  intro ts
  induction ts with
  | nil =>
    intro ins aux ins' aux' k h
    simp only [evalTerms, Option.some.injEq, Prod.mk.injEq] at h
    obtain ⟨h1, h2⟩ := h
    subst h1; subst h2
    refine ⟨rfl, rfl, ?_, ?_⟩ <;> intro i <;> simp [entriesFor]
  | cons t rest ih =>
    intro ins aux ins' aux' k h
    obtain ⟨⟨ti⟩, coeff⟩ := t
    cases ti with
    | Input i0 =>
      simp only [evalTerms] at h
      cases hp : pushAt ins i0 (coeff, k) with
      | none => rw [hp] at h; exact absurd h (by simp)
      | some ins1 =>
        rw [hp] at h
        obtain ⟨hb, hset⟩ := pushAt_some hp
        obtain ⟨hl1, hl2, hci, hca⟩ := ih ins1 aux ins' aux' k h
        subst hset
        refine ⟨by rw [hl1]; exact List.length_set .., hl2, ?_, ?_⟩
        · intro i
          rw [hci i]
          by_cases hii : i = i0
          · subst hii
            rw [getD_set_self _ _ _ _ hb,
              entriesFor_cons_eq (⟨Index.Input i⟩ : Variable) coeff rest k]
            simp
          · rw [getD_set_ne _ _ _ _ _ (fun hh => hii hh.symm),
              entriesFor_cons_ne (by simp [Variable.mk.injEq]; omega) coeff rest k]
        · intro i
          rw [hca i, entriesFor_cons_ne (by simp [Variable.mk.injEq]) coeff rest k]
    | Aux i0 =>
      simp only [evalTerms] at h
      cases hp : pushAt aux i0 (coeff, k) with
      | none => rw [hp] at h; exact absurd h (by simp)
      | some aux1 =>
        rw [hp] at h
        obtain ⟨hb, hset⟩ := pushAt_some hp
        obtain ⟨hl1, hl2, hci, hca⟩ := ih ins aux1 ins' aux' k h
        subst hset
        refine ⟨hl1, by rw [hl2]; exact List.length_set .., ?_, ?_⟩
        · intro i
          rw [hci i, entriesFor_cons_ne (by simp [Variable.mk.injEq]) coeff rest k]
        · intro i
          rw [hca i]
          by_cases hii : i = i0
          · subst hii
            rw [getD_set_self _ _ _ _ hb,
              entriesFor_cons_eq (⟨Index.Aux i⟩ : Variable) coeff rest k]
            simp
          · rw [getD_set_ne _ _ _ _ _ (fun hh => hii hh.symm),
              entriesFor_cons_ne (by simp [Variable.mk.injEq]; omega) coeff rest k]

theorem evalTerms_bounds {S : Type} :
    ∀ (ts : List (Variable × S)) (ins aux : List (List (S × Nat))) (k : Nat)
    (p : List (List (S × Nat)) × List (List (S × Nat))),
    evalTerms ts ins aux k = some p →
    ∀ t ∈ ts, varInBounds ins.length aux.length t.1 := by
  intro ts
  induction ts with
  | nil => intro ins aux k p h t ht; simp at ht
  | cons t0 rest ih =>
    intro ins aux k p h t ht
    obtain ⟨⟨ti⟩, coeff⟩ := t0
    cases ti with
    | Input i0 =>
      simp only [evalTerms] at h
      cases hp : pushAt ins i0 (coeff, k) with
      | none => rw [hp] at h; exact absurd h (by simp)
      | some ins1 =>
        rw [hp] at h
        obtain ⟨hb, hset⟩ := pushAt_some hp
        rcases List.mem_cons.mp ht with hteq | htrest
        · subst hteq; exact hb
        · have := ih ins1 aux k p h t htrest
          rwa [hset, List.length_set] at this
    | Aux i0 =>
      simp only [evalTerms] at h
      cases hp : pushAt aux i0 (coeff, k) with
      | none => rw [hp] at h; exact absurd h (by simp)
      | some aux1 =>
        rw [hp] at h
        obtain ⟨hb, hset⟩ := pushAt_some hp
        rcases List.mem_cons.mp ht with hteq | htrest
        · subst hteq; exact hb
        · have := ih ins aux1 k p h t htrest
          rwa [hset, List.length_set] at this

theorem evalTerms_total {S : Type} :
    ∀ (ts : List (Variable × S)) (ins aux : List (List (S × Nat))) (k : Nat),
    (∀ t ∈ ts, varInBounds ins.length aux.length t.1) →
    ∃ p, evalTerms ts ins aux k = some p := by
  intro ts
  induction ts with
  | nil => intro ins aux k hbnd; exact ⟨(ins, aux), rfl⟩
  | cons t0 rest ih =>
    intro ins aux k hbnd
    obtain ⟨⟨ti⟩, coeff⟩ := t0
    cases ti with
    | Input i0 =>
      have hb : i0 < ins.length := hbnd _ (List.mem_cons_self _ _)
      have hrest : ∀ t ∈ rest, varInBounds
          (ins.set i0 (ins.getD i0 [] ++ [(coeff, k)])).length aux.length t.1 := by
        intro t ht
        rw [List.length_set]
        exact hbnd t (List.mem_cons_of_mem _ ht)
      obtain ⟨p, hp⟩ := ih _ aux k hrest
      refine ⟨p, ?_⟩
      simp only [evalTerms, pushAt, if_pos hb]
      exact hp
    | Aux i0 =>
      have hb : i0 < aux.length := hbnd _ (List.mem_cons_self _ _)
      have hrest : ∀ t ∈ rest, varInBounds
          ins.length (aux.set i0 (aux.getD i0 [] ++ [(coeff, k)])).length t.1 := by
        intro t ht
        rw [List.length_set]
        exact hbnd t (List.mem_cons_of_mem _ ht)
      obtain ⟨p, hp⟩ := ih ins _ k hrest
      refine ⟨p, ?_⟩
      simp only [evalTerms, pushAt, if_pos hb]
      exact hp

/-! Properties of `enforce`. -/

theorem enforce_some {S : Type} {st st' : RawCircuit S} {nm : Unit → String}
    {fa fb fc : LinearCombination S → LinearCombination S}
    (h : st.enforce nm fa fb fc = some st') :
    EnforceSpec st st' (fa LinearCombination.zero) (fb LinearCombination.zero)
      (fc LinearCombination.zero) := by
  simp only [RawCircuit.enforce] at h
  cases hA : evalTerms (fa LinearCombination.zero).terms st.at_inputs st.at_aux
      st.num_constraints with
  | none => rw [hA] at h; exact absurd h (by simp)
  | some pa =>
    obtain ⟨ai, aa⟩ := pa
    rw [hA] at h
    cases hB : evalTerms (fb LinearCombination.zero).terms st.bt_inputs st.bt_aux
        st.num_constraints with
    | none => rw [hB] at h; exact absurd h (by simp)
    | some pb =>
      obtain ⟨bi, ba⟩ := pb
      rw [hB] at h
      cases hC : evalTerms (fc LinearCombination.zero).terms st.ct_inputs st.ct_aux
          st.num_constraints with
      | none => rw [hC] at h; exact absurd h (by simp)
      | some pc =>
        obtain ⟨ci, ca⟩ := pc
        rw [hC] at h
        simp only [Option.some.injEq] at h
        subst h
        obtain ⟨la1, la2, la3, la4⟩ := evalTerms_spec _ _ _ _ _ _ hA
        obtain ⟨lb1, lb2, lb3, lb4⟩ := evalTerms_spec _ _ _ _ _ _ hB
        obtain ⟨lc1, lc2, lc3, lc4⟩ := evalTerms_spec _ _ _ _ _ _ hC
        exact {
          ni := rfl, na := rfl, nc := rfl, ra := rfl, rb := rfl, rc := rfl
          lai := la1, laa := la2, lbi := lb1, lba := lb2, lci := lc1, lca := lc2
          cai := la3, caa := la4, cbi := lb3, cba := lb4, cci := lc3, cca := lc4
          bnda := evalTerms_bounds _ _ _ _ _ hA
          bndb := evalTerms_bounds _ _ _ _ _ hB
          bndc := evalTerms_bounds _ _ _ _ _ hC }

theorem enforce_total {S : Type} (st : RawCircuit S) (nm : Unit → String)
    (fa fb fc : LinearCombination S → LinearCombination S)
    (ha : ∀ t ∈ (fa LinearCombination.zero).terms,
      varInBounds st.at_inputs.length st.at_aux.length t.1)
    (hb : ∀ t ∈ (fb LinearCombination.zero).terms,
      varInBounds st.bt_inputs.length st.bt_aux.length t.1)
    (hc : ∀ t ∈ (fc LinearCombination.zero).terms,
      varInBounds st.ct_inputs.length st.ct_aux.length t.1) :
    ∃ st', st.enforce nm fa fb fc = some st' := by
  obtain ⟨⟨ai, aa⟩, hA⟩ := evalTerms_total _ _ _ st.num_constraints ha
  obtain ⟨⟨bi, ba⟩, hB⟩ := evalTerms_total _ _ _ st.num_constraints hb
  obtain ⟨⟨ci, ca⟩, hC⟩ := evalTerms_total _ _ _ st.num_constraints hc
  cases he : st.enforce nm fa fb fc with
  | some st' => exact ⟨st', rfl⟩
  | none =>
    exfalso
    simp only [RawCircuit.enforce, hA, hB, hC] at he
    exact Option.noConfusion he

/-! Columns derived from the row form. -/

theorem colOfFrom_append {S : Type} (v : Variable) (a : LinearCombination S) :
    ∀ (ls : List (LinearCombination S)) (i : Nat),
    colOfFrom v i (ls ++ [a]) = colOfFrom v i ls ++ entriesFor a.terms v (i + ls.length) := by
  intro ls
  induction ls with
  | nil => intro i; simp [colOfFrom]
  | cons l ls ih =>
    intro i
    calc colOfFrom v i ((l :: ls) ++ [a])
        = entriesFor l.terms v i ++ colOfFrom v (i + 1) (ls ++ [a]) := rfl
      _ = entriesFor l.terms v i ++
          (colOfFrom v (i + 1) ls ++ entriesFor a.terms v (i + 1 + ls.length)) := by
            rw [ih (i + 1)]
      _ = (entriesFor l.terms v i ++ colOfFrom v (i + 1) ls) ++
          entriesFor a.terms v (i + 1 + ls.length) := by
            rw [List.append_assoc]
      _ = colOfFrom v i (l :: ls) ++ entriesFor a.terms v (i + (l :: ls).length) := by
            rw [show i + 1 + ls.length = i + (l :: ls).length from by
              simp only [List.length_cons]; omega]
            rfl

theorem colOf_append {S : Type} (ls : List (LinearCombination S)) (a : LinearCombination S)
    (v : Variable) :
    colOf (ls ++ [a]) v = colOf ls v ++ entriesFor a.terms v ls.length := by
  unfold colOf
  rw [colOfFrom_append]
  simp

/-! The structural invariant holds in every reachable recorder state. -/

theorem inv_empty (S : Type) : Inv (RawCircuit.empty S) := by
  refine ⟨rfl, rfl, rfl, rfl, rfl, rfl, rfl, rfl, rfl, ?_, ?_, ?_⟩ <;>
    · intro v
      obtain ⟨ti⟩ := v
      cases ti <;> simp [RawCircuit.colA, RawCircuit.colB, RawCircuit.colC, RawCircuit.empty,
        colOf, colOfFrom, List.getD]

theorem inv_oneState (S : Type) : Inv (oneState S) := by
  refine ⟨rfl, rfl, rfl, rfl, rfl, rfl, rfl, rfl, rfl, ?_, ?_, ?_⟩ <;>
    · intro v
      obtain ⟨ti⟩ := v
      cases ti with
      | Input i =>
        cases i <;> simp [RawCircuit.colA, RawCircuit.colB, RawCircuit.colC, oneState,
          colOf, colOfFrom, List.getD]
      | Aux i =>
        simp [RawCircuit.colA, RawCircuit.colB, RawCircuit.colC, oneState,
          colOf, colOfFrom, List.getD]

theorem inv_enforce {S : Type} {st st' : RawCircuit S} {nm : Unit → String}
    {fa fb fc : LinearCombination S → LinearCombination S}
    (hinv : Inv st) (h : st.enforce nm fa fb fc = some st') : Inv st' := by
  have spec := enforce_some h
  refine ⟨?_, ?_, ?_, ?_, ?_, ?_, ?_, ?_, ?_, ?_, ?_, ?_⟩
  · rw [spec.lai, spec.ni]; exact hinv.ai
  · rw [spec.lbi, spec.ni]; exact hinv.bi
  · rw [spec.lci, spec.ni]; exact hinv.ci
  · rw [spec.laa, spec.na]; exact hinv.aa
  · rw [spec.lba, spec.na]; exact hinv.ba
  · rw [spec.lca, spec.na]; exact hinv.ca
  · rw [spec.ra, spec.nc, List.length_append, hinv.ra]; rfl
  · rw [spec.rb, spec.nc, List.length_append, hinv.rb]; rfl
  · rw [spec.rc, spec.nc, List.length_append, hinv.rc]; rfl
  · intro v
    obtain ⟨ti⟩ := v
    rw [spec.ra]
    cases ti with
    | Input i =>
      show st'.at_inputs.getD i [] = _
      rw [spec.cai i, colOf_append]
      have hcol : st.at_inputs.getD i [] = colOf st.lc_a ⟨Index.Input i⟩ := hinv.colA ⟨Index.Input i⟩
      rw [hcol, hinv.ra]
    | Aux i =>
      show st'.at_aux.getD i [] = _
      rw [spec.caa i, colOf_append]
      have hcol : st.at_aux.getD i [] = colOf st.lc_a ⟨Index.Aux i⟩ := hinv.colA ⟨Index.Aux i⟩
      rw [hcol, hinv.ra]
  · intro v
    obtain ⟨ti⟩ := v
    rw [spec.rb]
    cases ti with
    | Input i =>
      show st'.bt_inputs.getD i [] = _
      rw [spec.cbi i, colOf_append]
      have hcol : st.bt_inputs.getD i [] = colOf st.lc_b ⟨Index.Input i⟩ := hinv.colB ⟨Index.Input i⟩
      rw [hcol, hinv.rb]
    | Aux i =>
      show st'.bt_aux.getD i [] = _
      rw [spec.cba i, colOf_append]
      have hcol : st.bt_aux.getD i [] = colOf st.lc_b ⟨Index.Aux i⟩ := hinv.colB ⟨Index.Aux i⟩
      rw [hcol, hinv.rb]
  · intro v
    obtain ⟨ti⟩ := v
    rw [spec.rc]
    cases ti with
    | Input i =>
      show st'.ct_inputs.getD i [] = _
      rw [spec.cci i, colOf_append]
      have hcol : st.ct_inputs.getD i [] = colOf st.lc_c ⟨Index.Input i⟩ := hinv.colC ⟨Index.Input i⟩
      rw [hcol, hinv.rc]
    | Aux i =>
      show st'.ct_aux.getD i [] = _
      rw [spec.cca i, colOf_append]
      have hcol : st.ct_aux.getD i [] = colOf st.lc_c ⟨Index.Aux i⟩ := hinv.colC ⟨Index.Aux i⟩
      rw [hcol, hinv.rc]

theorem inv_applyOp {S : Type} {st st' : RawCircuit S} {op : Op S}
    (hinv : Inv st) (h : applyOp st op = some st') : Inv st' := by
  cases op with
  | allocAux =>
    simp only [applyOp, RawCircuit.alloc, Option.some.injEq] at h
    obtain rfl : _ = st' := h
    refine ⟨hinv.ai, hinv.bi, hinv.ci, ?_, ?_, ?_, hinv.ra, hinv.rb, hinv.rc, ?_, ?_, ?_⟩
    · simp [hinv.aa]
    · simp [hinv.ba]
    · simp [hinv.ca]
    · intro v
      obtain ⟨ti⟩ := v
      cases ti with
      | Input i => exact hinv.colA ⟨Index.Input i⟩
      | Aux i =>
        show (st.at_aux ++ [[]]).getD i [] = _
        rw [getD_singleton_pad]
        exact hinv.colA ⟨Index.Aux i⟩
    · intro v
      obtain ⟨ti⟩ := v
      cases ti with
      | Input i => exact hinv.colB ⟨Index.Input i⟩
      | Aux i =>
        show (st.bt_aux ++ [[]]).getD i [] = _
        rw [getD_singleton_pad]
        exact hinv.colB ⟨Index.Aux i⟩
    · intro v
      obtain ⟨ti⟩ := v
      cases ti with
      | Input i => exact hinv.colC ⟨Index.Input i⟩
      | Aux i =>
        show (st.ct_aux ++ [[]]).getD i [] = _
        rw [getD_singleton_pad]
        exact hinv.colC ⟨Index.Aux i⟩
  | allocInput =>
    simp only [applyOp, RawCircuit.alloc_input, Option.some.injEq] at h
    obtain rfl : _ = st' := h
    refine ⟨?_, ?_, ?_, hinv.aa, hinv.ba, hinv.ca, hinv.ra, hinv.rb, hinv.rc, ?_, ?_, ?_⟩
    · simp [hinv.ai]
    · simp [hinv.bi]
    · simp [hinv.ci]
    · intro v
      obtain ⟨ti⟩ := v
      cases ti with
      | Input i =>
        show (st.at_inputs ++ [[]]).getD i [] = _
        rw [getD_singleton_pad]
        exact hinv.colA ⟨Index.Input i⟩
      | Aux i => exact hinv.colA ⟨Index.Aux i⟩
    · intro v
      obtain ⟨ti⟩ := v
      cases ti with
      | Input i =>
        show (st.bt_inputs ++ [[]]).getD i [] = _
        rw [getD_singleton_pad]
        exact hinv.colB ⟨Index.Input i⟩
      | Aux i => exact hinv.colB ⟨Index.Aux i⟩
    · intro v
      obtain ⟨ti⟩ := v
      cases ti with
      | Input i =>
        show (st.ct_inputs ++ [[]]).getD i [] = _
        rw [getD_singleton_pad]
        exact hinv.colC ⟨Index.Input i⟩
      | Aux i => exact hinv.colC ⟨Index.Aux i⟩
  | enforce a b c =>
    simp only [applyOp] at h
    exact inv_enforce hinv h
  | pushNS =>
    obtain rfl : st = st' := by simpa [applyOp, RawCircuit.push_namespace] using h
    exact hinv
  | popNS =>
    obtain rfl : st = st' := by simpa [applyOp, RawCircuit.pop_namespace] using h
    exact hinv

theorem run_inv {S : Type} :
    ∀ (ops : List (Op S)) (st st' : RawCircuit S),
    Inv st → run st ops = some st' → Inv st' := by
  intro ops
  induction ops with
  | nil =>
    intro st st' hinv h
    simp only [run, Option.some.injEq] at h
    subst h
    exact hinv
  | cons op rest ih =>
    intro st st' hinv h
    simp only [run] at h
    cases hop : applyOp st op with
    | none => rw [hop] at h; exact absurd h (by simp)
    | some st1 =>
      rw [hop] at h
      exact ih st1 st' (inv_applyOp hinv hop) h

theorem run_counts {S : Type} :
    ∀ (ops : List (Op S)) (st st' : RawCircuit S),
    run st ops = some st' →
    st'.num_constraints = st.num_constraints + enforceCount ops ∧
    st'.num_inputs = st.num_inputs + inputAllocCount ops ∧
    st.num_inputs ≤ st'.num_inputs := by
  intro ops
  induction ops with
  | nil =>
    intro st st' h
    simp only [run, Option.some.injEq] at h
    subst h
    exact ⟨rfl, rfl, le_refl _⟩
  | cons op rest ih =>
    intro st st' h
    simp only [run] at h
    cases hop : applyOp st op with
    | none => rw [hop] at h; exact absurd h (by simp)
    | some st1 =>
      rw [hop] at h
      obtain ⟨h1, h2, h3⟩ := ih st1 st' h
      cases op with
      | allocAux =>
        simp only [applyOp, RawCircuit.alloc, Option.some.injEq] at hop
        obtain rfl : _ = st1 := hop
        exact ⟨h1, h2, h3⟩
      | allocInput =>
        simp only [applyOp, RawCircuit.alloc_input, Option.some.injEq] at hop
        obtain rfl : _ = st1 := hop
        have h2x : st'.num_inputs = st.num_inputs + 1 + inputAllocCount rest := h2
        have h3x : st.num_inputs + 1 ≤ st'.num_inputs := h3
        refine ⟨h1, ?_, ?_⟩
        · show st'.num_inputs = st.num_inputs + (inputAllocCount rest + 1)
          omega
        · omega
      | enforce a b c =>
        simp only [applyOp] at hop
        have spec := enforce_some hop
        have h1x : st'.num_constraints = st1.num_constraints + enforceCount rest := h1
        refine ⟨?_, ?_, ?_⟩
        · show st'.num_constraints = st.num_constraints + (enforceCount rest + 1)
          rw [spec.nc] at h1x
          omega
        · rw [h2, spec.ni]; rfl
        · rw [spec.ni] at h3; exact h3
      | pushNS =>
        obtain rfl : st = st1 := by simpa [applyOp, RawCircuit.push_namespace] using hop
        exact ⟨h1, h2, h3⟩
      | popNS =>
        obtain rfl : st = st1 := by simpa [applyOp, RawCircuit.pop_namespace] using hop
        exact ⟨h1, h2, h3⟩

/-! Counting entries in derived columns. -/

theorem ledgerCount_entriesFor_eq {S : Type} [DecidableEq S] (v : Variable) (x : S) (i : Nat) :
    ∀ ts : List (Variable × S),
    ledgerCount (entriesFor ts v i) x i = termCount ⟨ts⟩ v x := by
  intro ts
  induction ts with
  | nil => rfl
  | cons t rest ih =>
    obtain ⟨w, coeff⟩ := t
    by_cases hw : w = v
    · subst hw
      rw [entriesFor_cons_eq]
      unfold ledgerCount termCount at ih ⊢
      rw [List.countP_cons, List.countP_cons]
      rw [ih]
      by_cases hx : coeff = x
      · subst hx; simp
      · simp [hx, Prod.ext_iff]
    · rw [entriesFor_cons_ne hw]
      unfold ledgerCount termCount at ih ⊢
      rw [List.countP_cons]
      rw [ih]
      simp [hw]

theorem ledgerCount_entriesFor_ne {S : Type} [DecidableEq S] (v : Variable) (x : S)
    {i c : Nat} (h : c ≠ i) :
    ∀ ts : List (Variable × S), ledgerCount (entriesFor ts v i) x c = 0 := by
  intro ts
  induction ts with
  | nil => rfl
  | cons t rest ih =>
    obtain ⟨w, coeff⟩ := t
    by_cases hw : w = v
    · subst hw
      rw [entriesFor_cons_eq]
      unfold ledgerCount at ih ⊢
      rw [List.countP_cons, ih]
      simp [Prod.ext_iff]
      intro hx
      omega
    · rw [entriesFor_cons_ne hw]
      exact ih

theorem ledgerCount_colOfFrom_lt {S : Type} [DecidableEq S] (v : Variable) (x : S) :
    ∀ (ls : List (LinearCombination S)) (i c : Nat), c < i →
    ledgerCount (colOfFrom v i ls) x c = 0 := by
  intro ls
  induction ls with
  | nil => intro i c h; rfl
  | cons l ls ih =>
    intro i c h
    show ledgerCount (entriesFor l.terms v i ++ colOfFrom v (i + 1) ls) x c = 0
    unfold ledgerCount
    rw [List.countP_append]
    have h1 : ledgerCount (entriesFor l.terms v i) x c = 0 :=
      ledgerCount_entriesFor_ne v x (by omega) l.terms
    have h2 : ledgerCount (colOfFrom v (i + 1) ls) x c = 0 := ih (i + 1) c (by omega)
    unfold ledgerCount at h1 h2
    rw [h1, h2]

theorem ledgerCount_colOfFrom {S : Type} [DecidableEq S] (v : Variable) (x : S) :
    ∀ (ls : List (LinearCombination S)) (i c : Nat), i ≤ c →
    ledgerCount (colOfFrom v i ls) x c =
      termCount (ls.getD (c - i) LinearCombination.zero) v x := by
  intro ls
  induction ls with
  | nil => intro i c h; rfl
  | cons l ls ih =>
    intro i c h
    show ledgerCount (entriesFor l.terms v i ++ colOfFrom v (i + 1) ls) x c = _
    unfold ledgerCount
    rw [List.countP_append]
    by_cases hc : c = i
    · subst hc
      have h1 := ledgerCount_entriesFor_eq v x c l.terms
      have h2 := ledgerCount_colOfFrom_lt v x ls (c + 1) c (by omega)
      unfold ledgerCount at h1 h2
      rw [h1, h2, Nat.sub_self]
      show termCount ⟨l.terms⟩ v x + 0 = termCount l v x
      rw [Nat.add_zero]
    · have hlt : i < c := lt_of_le_of_ne h (fun hh => hc hh.symm)
      have h1 := ledgerCount_entriesFor_ne v x (fun hh => hc hh) l.terms
      have h2 := ih (i + 1) c (by omega)
      unfold ledgerCount at h1 h2
      rw [h1, h2, Nat.zero_add]
      obtain ⟨d, hd⟩ : ∃ d, c - i = d + 1 := ⟨c - i - 1, by omega⟩
      rw [hd]
      have hd2 : c - (i + 1) = d := by omega
      rw [hd2]
      rfl

theorem ledgerCount_colOf {S : Type} [DecidableEq S] (ls : List (LinearCombination S))
    (v : Variable) (x : S) (c : Nat) :
    ledgerCount (colOf ls v) x c = termCount (ls.getD c LinearCombination.zero) v x := by
  unfold colOf
  rw [ledgerCount_colOfFrom v x ls 0 c (Nat.zero_le c), Nat.sub_zero]

theorem inv_rowColConsistent {S : Type} [DecidableEq S] {st : RawCircuit S}
    (hinv : Inv st) : rowColConsistent st := by
  intro c v x
  refine ⟨?_, ?_, ?_⟩
  · rw [hinv.colA v, ledgerCount_colOf]
  · rw [hinv.colB v, ledgerCount_colOf]
  · rw [hinv.colC v, ledgerCount_colOf]

/-! The padding loop and the export driver. -/

theorem getD_map_range {α : Type} (f : Nat → α) (d : α) :
    ∀ n i, i < n → ((List.range n).map f).getD i d = f i := by
  intro n
  induction n with
  | zero => intro i h; exact absurd h (Nat.not_lt_zero i)
  | succ n ih =>
    intro i h
    rw [List.range_succ, List.map_append]
    simp only [List.map_cons, List.map_nil]
    by_cases hi : i < n
    · rw [getD_append_left _ _ _ _ (by simpa using hi)]
      exact ih i hi
    · have hi2 : i = n := by omega
      subst hi2
      have h0 := getD_append_right ((List.range i).map f) [f i] d 0
      simp only [List.length_map, List.length_range, Nat.add_zero] at h0
      rw [h0]
      rfl

theorem padLoop_spec {S : Type} [One S] :
    ∀ (is : List Nat) (st : RawCircuit S),
    (∀ i ∈ is, i < st.at_inputs.length) →
    ∃ st', padLoop is st = some st' ∧
      st'.num_constraints = st.num_constraints + is.length ∧
      st'.num_inputs = st.num_inputs ∧
      st'.num_aux = st.num_aux ∧
      st'.lc_a = st.lc_a ++ is.map (fun i => LinearCombination.mk [(⟨Index.Input i⟩, 1)]) ∧
      st'.lc_b = st.lc_b ++ is.map (fun _ => LinearCombination.zero) ∧
      st'.lc_c = st.lc_c ++ is.map (fun _ => LinearCombination.zero) := by
  intro is
  induction is with
  | nil =>
    intro st hbnd
    exact ⟨st, rfl, by simp, rfl, rfl, by simp, by simp, by simp⟩
  | cons i is ih =>
    intro st hbnd
    have ha : ∀ t ∈ (LinearCombination.addVar (LinearCombination.zero (S := S))
        ⟨Index.Input i⟩).terms,
        varInBounds st.at_inputs.length st.at_aux.length t.1 := by
      intro t ht
      have : t = (⟨Index.Input i⟩, (1 : S)) := by
        simpa [LinearCombination.addVar, LinearCombination.addTerm,
          LinearCombination.zero] using ht
      subst this
      exact hbnd i (List.mem_cons_self _ _)
    have hz : ∀ (len1 len2 : Nat), ∀ t ∈ (LinearCombination.zero (S := S)).terms,
        varInBounds len1 len2 t.1 := by
      intro len1 len2 t ht
      simp [LinearCombination.zero] at ht
    obtain ⟨st1, he⟩ := enforce_total st (fun _ => "")
      (fun l => l.addVar ⟨Index.Input i⟩) (fun l => l) (fun l => l)
      ha (hz _ _) (hz _ _)
    have spec := enforce_some he
    have hbnd1 : ∀ j ∈ is, j < st1.at_inputs.length := by
      intro j hj
      rw [spec.lai]
      exact hbnd j (List.mem_cons_of_mem _ hj)
    obtain ⟨st', hrun, hnc, hni, hna, hra, hrb, hrc⟩ := ih st1 hbnd1
    refine ⟨st', ?_, ?_, ?_, ?_, ?_, ?_, ?_⟩
    · simp only [padLoop, he]
      exact hrun
    · rw [hnc, spec.nc]
      simp only [List.length_cons]
      omega
    · rw [hni, spec.ni]
    · rw [hna, spec.na]
    · rw [hra, spec.ra, List.append_assoc]
      rfl
    · rw [hrb, spec.rb, List.append_assoc]
      rfl
    · rw [hrc, spec.rc, List.append_assoc]
      rfl

theorem alloc_input_empty (S : Type) (nm : Unit → String)
    (f : Unit → Except SynthesisError S) :
    (RawCircuit.empty S).alloc_input nm f = Except.ok (⟨Index.Input 0⟩, oneState S) := rfl

theorem export_eq {S : Type} [One S] (c : CircuitRoutine S) :
    export_to_json c =
      match run (oneState S) c.ops with
      | none => none
      | some cs2 =>
        match c.outcome with
        | some e => some (Except.error e)
        | none =>
          match padInputs cs2 with
          | none => none
          | some cs3 => some (Except.ok (cs3.lc_a, cs3.lc_b, cs3.lc_c)) := rfl

theorem export_ok {S : Type} [One S] (c : CircuitRoutine S) (st2 : RawCircuit S)
    (hrun : run (oneState S) c.ops = some st2) (hout : c.outcome = none) :
    ∃ st3, padInputs st2 = some st3 ∧
      export_to_json c = some (Except.ok (st3.lc_a, st3.lc_b, st3.lc_c)) ∧
      st3.num_constraints = st2.num_constraints + st2.num_inputs ∧
      st3.num_inputs = st2.num_inputs ∧
      st3.lc_a = st2.lc_a ++ (List.range st2.num_inputs).map
        (fun i => LinearCombination.mk [(⟨Index.Input i⟩, 1)]) ∧
      st3.lc_b = st2.lc_b ++ (List.range st2.num_inputs).map
        (fun _ => LinearCombination.zero) ∧
      st3.lc_c = st2.lc_c ++ (List.range st2.num_inputs).map
        (fun _ => LinearCombination.zero) := by
  have hinv2 : Inv st2 := run_inv c.ops (oneState S) st2 (inv_oneState S) hrun
  have hb : ∀ i ∈ List.range st2.num_inputs, i < st2.at_inputs.length := by
    intro i hi
    rw [hinv2.ai]
    exact List.mem_range.mp hi
  obtain ⟨st3, hpad, hnc, hni, hna, hra, hrb, hrc⟩ :=
    padLoop_spec (List.range st2.num_inputs) st2 hb
  refine ⟨st3, hpad, ?_, ?_, hni, hra, hrb, hrc⟩
  · rw [export_eq c]
    simp only [hrun, hout, padInputs, hpad]
  · rw [hnc]
    simp

/-! Claim theorems. -/

/-- C1: for every circuit-definition routine that completes successfully after
making k enforce calls and allocating n-1 Input variables (n Input variables in
total, counting the reserved "one"), a successful export ends with the
recorder's constraint counter and all three row-form matrices holding exactly
k + n constraints. In particular a routine that allocates nothing and enforces
nothing yields exactly 1 constraint. -/
theorem c1_export_constraint_count {S : Type} [One S] (c : CircuitRoutine S)
    (st2 : RawCircuit S) (hrun : run (oneState S) c.ops = some st2)
    (hout : c.outcome = none) :
    ∃ st3, padInputs st2 = some st3 ∧
      export_to_json c = some (Except.ok (st3.lc_a, st3.lc_b, st3.lc_c)) ∧
      st3.num_constraints = enforceCount c.ops + (inputAllocCount c.ops + 1) ∧
      st3.lc_a.length = st3.num_constraints ∧
      st3.lc_b.length = st3.num_constraints ∧
      st3.lc_c.length = st3.num_constraints := by
  obtain ⟨st3, hpad, hexp, hnc, hni, hra, hrb, hrc⟩ := export_ok c st2 hrun hout
  obtain ⟨k1, k2, k3⟩ := run_counts c.ops (oneState S) st2 hrun
  have hinv2 : Inv st2 := run_inv c.ops (oneState S) st2 (inv_oneState S) hrun
  have hc2 : st2.num_constraints = enforceCount c.ops := by
    have : st2.num_constraints = 0 + enforceCount c.ops := k1
    omega
  have hi2 : st2.num_inputs = inputAllocCount c.ops + 1 := by
    have : st2.num_inputs = 1 + inputAllocCount c.ops := k2
    omega
  refine ⟨st3, hpad, hexp, ?_, ?_, ?_, ?_⟩
  · rw [hnc]; omega
  · rw [hra, List.length_append, List.length_map, List.length_range, hinv2.ra, hnc]
  · rw [hrb, List.length_append, List.length_map, List.length_range, hinv2.rb, hnc]
  · rw [hrc, List.length_append, List.length_map, List.length_range, hinv2.rc, hnc]

theorem c1_witness :
    ∃ st3, padInputs (oneState Int) = some st3 ∧
      export_to_json (CircuitRoutine.mk ([] : List (Op Int)) none) =
        some (Except.ok (st3.lc_a, st3.lc_b, st3.lc_c)) ∧
      st3.num_constraints = 1 ∧
      st3.lc_a.length = st3.num_constraints ∧
      st3.lc_b.length = st3.num_constraints ∧
      st3.lc_c.length = st3.num_constraints :=
  c1_export_constraint_count (CircuitRoutine.mk [] none) (oneState Int) rfl rfl

/-- C2: after a successful export with k enforce calls and n Input variables,
the row form is the k user constraints followed by the n padding constraints in
increasing index order, and for every i < n the constraint at position k + i is
exactly A = a single term (coefficient 1, Input(i)), B = empty, C = empty. -/
theorem c2_padding_constraints {S : Type} [One S] (c : CircuitRoutine S)
    (st2 : RawCircuit S) (hrun : run (oneState S) c.ops = some st2)
    (hout : c.outcome = none) :
    ∃ st3, padInputs st2 = some st3 ∧
      export_to_json c = some (Except.ok (st3.lc_a, st3.lc_b, st3.lc_c)) ∧
      st3.lc_a = st2.lc_a ++ (List.range st2.num_inputs).map
        (fun i => LinearCombination.mk [(⟨Index.Input i⟩, 1)]) ∧
      st3.lc_b = st2.lc_b ++ (List.range st2.num_inputs).map
        (fun _ => LinearCombination.zero) ∧
      st3.lc_c = st2.lc_c ++ (List.range st2.num_inputs).map
        (fun _ => LinearCombination.zero) ∧
      ∀ i, i < st2.num_inputs →
        st3.lc_a.getD (enforceCount c.ops + i) LinearCombination.zero =
          LinearCombination.mk [(⟨Index.Input i⟩, 1)] ∧
        st3.lc_b.getD (enforceCount c.ops + i) LinearCombination.zero =
          LinearCombination.zero ∧
        st3.lc_c.getD (enforceCount c.ops + i) LinearCombination.zero =
          LinearCombination.zero := by
  obtain ⟨st3, hpad, hexp, hnc, hni, hra, hrb, hrc⟩ := export_ok c st2 hrun hout
  obtain ⟨k1, k2, k3⟩ := run_counts c.ops (oneState S) st2 hrun
  have hinv2 : Inv st2 := run_inv c.ops (oneState S) st2 (inv_oneState S) hrun
  have hc2 : st2.num_constraints = enforceCount c.ops := by
    have : st2.num_constraints = 0 + enforceCount c.ops := k1
    omega
  have hka : st2.lc_a.length = enforceCount c.ops := by rw [hinv2.ra, hc2]
  have hkb : st2.lc_b.length = enforceCount c.ops := by rw [hinv2.rb, hc2]
  have hkc : st2.lc_c.length = enforceCount c.ops := by rw [hinv2.rc, hc2]
  refine ⟨st3, hpad, hexp, hra, hrb, hrc, ?_⟩
  intro i hi
  refine ⟨?_, ?_, ?_⟩
  · rw [hra, ← hka, getD_append_right,
      getD_map_range (fun i => LinearCombination.mk [(⟨Index.Input i⟩, 1)]) _ _ i hi]
  · rw [hrb, ← hkb, getD_append_right,
      getD_map_range (fun _ => LinearCombination.zero) _ _ i hi]
  · rw [hrc, ← hkc, getD_append_right,
      getD_map_range (fun _ => LinearCombination.zero) _ _ i hi]

theorem c2_witness :
    ∃ st3, padInputs (oneState Int) = some st3 ∧
      export_to_json (CircuitRoutine.mk ([] : List (Op Int)) none) =
        some (Except.ok (st3.lc_a, st3.lc_b, st3.lc_c)) ∧
      st3.lc_a = (List.range 1).map
        (fun i => LinearCombination.mk [(⟨Index.Input i⟩, (1 : Int))]) ∧
      st3.lc_b = (List.range 1).map (fun _ => LinearCombination.zero) ∧
      st3.lc_c = (List.range 1).map (fun _ => LinearCombination.zero) ∧
      ∀ i, i < 1 →
        st3.lc_a.getD (0 + i) LinearCombination.zero =
          LinearCombination.mk [(⟨Index.Input i⟩, (1 : Int))] ∧
        st3.lc_b.getD (0 + i) LinearCombination.zero = LinearCombination.zero ∧
        st3.lc_c.getD (0 + i) LinearCombination.zero = LinearCombination.zero :=
  c2_padding_constraints (CircuitRoutine.mk [] none) (oneState Int) rfl rfl

/-- C3: the export driver allocates exactly one Input variable, with index 0,
before the circuit-definition routine runs, and every Input variable a routine
allocates afterwards receives index at least 1. -/
theorem c3_reserved_one_input {S : Type} (nm nm2 : Unit → String)
    (f f2 : Unit → Except SynthesisError S)
    (ops : List (Op S)) (st' : RawCircuit S)
    (hrun : run (oneState S) ops = some st') :
    (RawCircuit.empty S).alloc_input nm f = Except.ok (⟨Index.Input 0⟩, oneState S) ∧
    (oneState S).num_inputs = 1 ∧
    ∃ st'', st'.alloc_input nm2 f2 = Except.ok (⟨Index.Input st'.num_inputs⟩, st'') ∧
      1 ≤ st'.num_inputs := by
  refine ⟨rfl, rfl, ⟨_, rfl, ?_⟩⟩
  obtain ⟨_, _, h3⟩ := run_counts ops (oneState S) st' hrun
  exact h3

theorem c3_witness :
    (RawCircuit.empty Int).alloc_input (fun _ => "") (fun _ => Except.ok 0) =
      Except.ok (⟨Index.Input 0⟩, oneState Int) ∧
    (oneState Int).num_inputs = 1 ∧
    ∃ st'', (oneState Int).alloc_input (fun _ => "") (fun _ => Except.ok 0) =
      Except.ok (⟨Index.Input (oneState Int).num_inputs⟩, st'') ∧
      1 ≤ (oneState Int).num_inputs :=
  c3_reserved_one_input (fun _ => "") (fun _ => "") (fun _ => Except.ok 0)
    (fun _ => Except.ok 0) [] (oneState Int) rfl

/-- C4: a synthesis failure signalled by the circuit-definition routine is
returned by export exactly as-is, with no padding appended and no structural
dump emitted, and a successful (non-panicking) routine never makes export
return a failure: export fails exactly when the routine fails. -/
theorem c4_failure_propagation {S : Type} [One S] (c : CircuitRoutine S)
    (st2 : RawCircuit S) (hrun : run (oneState S) c.ops = some st2) :
    (∀ e, c.outcome = some e → export_to_json c = some (Except.error e)) ∧
    (c.outcome = none →
      ∃ out, export_to_json c = some (Except.ok out)) := by
  constructor
  · intro e hout
    rw [export_eq c]
    simp only [hrun, hout]
  · intro hout
    obtain ⟨st3, hpad, hexp, _⟩ := export_ok c st2 hrun hout
    exact ⟨_, hexp⟩

theorem c4_witness :
    (∀ e, (CircuitRoutine.mk ([] : List (Op Int)) (some ⟨7⟩)).outcome = some e →
      export_to_json (CircuitRoutine.mk ([] : List (Op Int)) (some ⟨7⟩)) =
        some (Except.error e)) ∧
    ((CircuitRoutine.mk ([] : List (Op Int)) (some ⟨7⟩)).outcome = none →
      ∃ out, export_to_json (CircuitRoutine.mk ([] : List (Op Int)) (some ⟨7⟩)) =
        some (Except.ok out)) :=
  c4_failure_propagation (CircuitRoutine.mk [] (some ⟨7⟩)) (oneState Int) rfl

/-- C5 counterexample: `enforce` is not total on arbitrary recorder states and
builders. On the empty recorder, a builder that mentions the unallocated
variable Aux(0) makes `enforce` hit the out-of-bounds ledger access (a panic,
modelled as `none`), so nothing is appended and the constraint counter is not
incremented, contradicting the claim's unconditional description. -/
theorem c5_counterexample :
    RawCircuit.enforce (RawCircuit.empty Int) (fun _ => "")
      (fun l => l.addTerm 1 ⟨Index.Aux 0⟩) (fun l => l) (fun l => l) = none := rfl

/-- C5 amended: for every recorder state and builders whose three linear
combinations mention only variables with a column in the ledgers (every Input
index below the input-ledger length and every Aux index below the aux-ledger
length, which for reachable states means previously allocated), `enforce`
succeeds and appends (A, B, C) to the row form, appends (coefficient,
current-constraint-index) to the matching per-variable column ledger for every
term of A, B and C, and increments the constraint counter by exactly one. -/
theorem c5_enforce_spec {S : Type} (st : RawCircuit S) (nm : Unit → String)
    (fa fb fc : LinearCombination S → LinearCombination S)
    (ha : ∀ t ∈ (fa LinearCombination.zero).terms,
      varInBounds st.at_inputs.length st.at_aux.length t.1)
    (hb : ∀ t ∈ (fb LinearCombination.zero).terms,
      varInBounds st.bt_inputs.length st.bt_aux.length t.1)
    (hc : ∀ t ∈ (fc LinearCombination.zero).terms,
      varInBounds st.ct_inputs.length st.ct_aux.length t.1) :
    ∃ st', st.enforce nm fa fb fc = some st' ∧
      EnforceSpec st st' (fa LinearCombination.zero) (fb LinearCombination.zero)
        (fc LinearCombination.zero) := by
  obtain ⟨st', he⟩ := enforce_total st nm fa fb fc ha hb hc
  exact ⟨st', he, enforce_some he⟩

theorem c5_witness :
    ∃ st', (oneState Int).enforce (fun _ => "")
        (fun l => l.addTerm 2 ⟨Index.Input 0⟩) (fun l => l) (fun l => l) = some st' ∧
      EnforceSpec (oneState Int) st'
        ((LinearCombination.zero (S := Int)).addTerm 2 ⟨Index.Input 0⟩)
        LinearCombination.zero LinearCombination.zero :=
  c5_enforce_spec (oneState Int) (fun _ => "")
    (fun l => l.addTerm 2 ⟨Index.Input 0⟩) (fun l => l) (fun l => l)
    (by decide) (by decide) (by decide)

/-- C6: row/column consistency is an invariant of every reachable recorder
state (the empty recorder followed by any sequence of operations): a variable
appears in constraint c's A linear combination with coefficient x exactly as
many times as (x, c) appears in its A-column ledger, and likewise for B and C. -/
theorem c6_row_column_consistency {S : Type} [DecidableEq S] (ops : List (Op S))
    (st : RawCircuit S) (h : run (RawCircuit.empty S) ops = some st) :
    rowColConsistent st :=
  inv_rowColConsistent (run_inv ops (RawCircuit.empty S) st (inv_empty S) h)

theorem c6_witness :
    rowColConsistent
      (⟨1, 0, 1, [[((2 : Int), 0)]], [[]], [[]], [], [], [],
        [⟨[(⟨Index.Input 0⟩, 2)]⟩], [⟨[]⟩], [⟨[]⟩]⟩ : RawCircuit Int) :=
  c6_row_column_consistency
    [Op.allocInput, Op.enforce ⟨[(⟨Index.Input 0⟩, 2)]⟩ LinearCombination.zero
      LinearCombination.zero]
    _ rfl

/-- C7: `alloc` returns an Auxiliary variable whose index is the auxiliary
count before the call, increments that count by one, pushes one empty entry
onto each of the three auxiliary column ledgers, leaves every other recorder
field unchanged, and never returns an error; `alloc_input` behaves
symmetrically for the Input variant. -/
theorem c7_alloc_behavior {S : Type} (st : RawCircuit S) (nm : Unit → String)
    (f : Unit → Except SynthesisError S) :
    (∃ st', st.alloc nm f = Except.ok (⟨Index.Aux st.num_aux⟩, st') ∧
      st'.num_aux = st.num_aux + 1 ∧
      st'.at_aux = st.at_aux ++ [[]] ∧
      st'.bt_aux = st.bt_aux ++ [[]] ∧
      st'.ct_aux = st.ct_aux ++ [[]] ∧
      st'.num_inputs = st.num_inputs ∧
      st'.num_constraints = st.num_constraints ∧
      st'.at_inputs = st.at_inputs ∧
      st'.bt_inputs = st.bt_inputs ∧
      st'.ct_inputs = st.ct_inputs ∧
      st'.lc_a = st.lc_a ∧ st'.lc_b = st.lc_b ∧ st'.lc_c = st.lc_c) ∧
    (∃ st', st.alloc_input nm f = Except.ok (⟨Index.Input st.num_inputs⟩, st') ∧
      st'.num_inputs = st.num_inputs + 1 ∧
      st'.at_inputs = st.at_inputs ++ [[]] ∧
      st'.bt_inputs = st.bt_inputs ++ [[]] ∧
      st'.ct_inputs = st.ct_inputs ++ [[]] ∧
      st'.num_aux = st.num_aux ∧
      st'.num_constraints = st.num_constraints ∧
      st'.at_aux = st.at_aux ∧
      st'.bt_aux = st.bt_aux ∧
      st'.ct_aux = st.ct_aux ∧
      st'.lc_a = st.lc_a ∧ st'.lc_b = st.lc_b ∧ st'.lc_c = st.lc_c) :=
  ⟨⟨_, rfl, rfl, rfl, rfl, rfl, rfl, rfl, rfl, rfl, rfl, rfl, rfl, rfl⟩,
   ⟨_, rfl, rfl, rfl, rfl, rfl, rfl, rfl, rfl, rfl, rfl, rfl, rfl, rfl⟩⟩

/-- C8: on a reachable recorder, when every variable mentioned by the three
builders was previously allocated (Input index below `num_inputs`, Aux index
below `num_aux`), every ledger access in `enforce` is in bounds and `enforce`
completes: the out-of-bounds panic branch is unreachable. -/
theorem c8_enforce_no_panic {S : Type} (ops : List (Op S)) (st : RawCircuit S)
    (hreach : run (RawCircuit.empty S) ops = some st)
    (nm : Unit → String) (fa fb fc : LinearCombination S → LinearCombination S)
    (ha : ∀ t ∈ (fa LinearCombination.zero).terms, varInBounds st.num_inputs st.num_aux t.1)
    (hb : ∀ t ∈ (fb LinearCombination.zero).terms, varInBounds st.num_inputs st.num_aux t.1)
    (hc : ∀ t ∈ (fc LinearCombination.zero).terms, varInBounds st.num_inputs st.num_aux t.1) :
    (st.enforce nm fa fb fc).isSome := by
  have hinv := run_inv ops (RawCircuit.empty S) st (inv_empty S) hreach
  have ha2 : ∀ t ∈ (fa LinearCombination.zero).terms,
      varInBounds st.at_inputs.length st.at_aux.length t.1 := by
    rw [hinv.ai, hinv.aa]; exact ha
  have hb2 : ∀ t ∈ (fb LinearCombination.zero).terms,
      varInBounds st.bt_inputs.length st.bt_aux.length t.1 := by
    rw [hinv.bi, hinv.ba]; exact hb
  have hc2 : ∀ t ∈ (fc LinearCombination.zero).terms,
      varInBounds st.ct_inputs.length st.ct_aux.length t.1 := by
    rw [hinv.ci, hinv.ca]; exact hc
  obtain ⟨st', he⟩ := enforce_total st nm fa fb fc ha2 hb2 hc2
  rw [he]
  rfl

theorem c8_witness :
    ((oneState Int).enforce (fun _ => "") (fun l => l.addTerm 3 ⟨Index.Input 0⟩)
      (fun l => l) (fun l => l)).isSome :=
  c8_enforce_no_panic [Op.allocInput] (oneState Int) rfl (fun _ => "")
    (fun l => l.addTerm 3 ⟨Index.Input 0⟩) (fun l => l) (fun l => l)
    (by decide) (by decide) (by decide)

/-- C9: the value-synthesis closure handed to `alloc` or `alloc_input` is never
invoked and has no influence: for any two such closures (including failing
ones) the returned variable and the entire post-state are identical. -/
theorem c9_value_fn_irrelevant {S : Type} (st : RawCircuit S) (nm : Unit → String)
    (f1 f2 : Unit → Except SynthesisError S) :
    st.alloc nm f1 = st.alloc nm f2 ∧ st.alloc_input nm f1 = st.alloc_input nm f2 :=
  ⟨rfl, rfl⟩

/-- C10: `push_namespace` and `pop_namespace` leave the entire recorder state
unchanged, and the caller-supplied naming computation handed to
`push_namespace` is never invoked: any two naming closures give the same
(identical, unchanged) result. -/
theorem c10_namespace_noop {S : Type} (st : RawCircuit S) (nm1 nm2 : Unit → String) :
    st.push_namespace nm1 = st ∧ st.pop_namespace = st ∧
    st.push_namespace nm1 = st.push_namespace nm2 :=
  ⟨rfl, rfl, rfl⟩

end Bellman
